import Mathlib

/-
Verification of the GTFS processing module (src/backend/models/gtfs.py) of the
metrics-mvp repository.

The Python source is shallowly embedded as executable Lean definitions:

* Python lists become `List`; Python dicts (which preserve insertion order)
  become insertion-ordered association lists or, where only membership matters,
  total functions with `[]` as the default value.
* Python's builtin stable `sorted(l, key=...)` is modelled by `pySorted`,
  a left-to-right stable insertion sort.  Python's Timsort is stable, and any
  two stable sorts over the same comparison agree, so the model is faithful.
* Fallible code returns `Option`/`Except`; `none` / `.error` model uncaught
  Python exceptions.
* Geometric quantities (shapely distances, haversine segment lengths) enter
  the embedding as rational-valued inputs; the algorithms under verification
  only compare and add them, which the embedding reproduces exactly.
-/

set_option maxHeartbeats 1000000

namespace Gtfs

section Definitions

variable {α : Type*}

def insertLe (le : α → α → Bool) (x : α) : List α → List α
  | [] => [x]
  | y :: ys => if le y x then y :: insertLe le x ys else x :: y :: ys

def pySorted (le : α → α → Bool) (l : List α) : List α :=
  l.foldl (fun acc x => insertLe le x acc) []

def SortedBy (le : α → α → Bool) (l : List α) : Prop :=
  l.Pairwise (fun a b => le a b = true)

def keyLe (key : α → Nat) : α → α → Bool :=
  fun a b => decide (key a ≤ key b)

def listIndex [DecidableEq α] : List α → α → Option Nat
  | [], _ => none
  | y :: ys, x => if y = x then some 0 else (listIndex ys x).map (· + 1)

def listIndexFrom [DecidableEq α] (l : List α) (x : α) (start : Nat) : Option Nat :=
  (listIndex (l.drop start) x).map (· + start)

def pySlice (l : List α) (a b : Nat) : List α :=
  (l.drop a).take (b - a)

def is_subsequence {α : Type*} [DecidableEq α] (smaller bigger : List α) : Option Bool :=
  if smaller.length > bigger.length then some false
  else
    match smaller with
    | [] => none
    | x :: _ =>
      match listIndex bigger x with
      | none => some false
      | some start_pos =>
        if start_pos + smaller.length > bigger.length then some false
        else some (decide (smaller = pySlice bigger start_pos (start_pos + smaller.length)))

structure Arrival where
  t : Nat
  i : Nat
  e : Option Nat
deriving DecidableEq

def arrLe : Arrival → Arrival → Bool :=
  keyLe (fun a => a.t)

def save_timetables_merge (lists : List (List Arrival)) : List Arrival :=
  lists.foldl (fun acc l => pySorted arrLe (acc ++ l)) []

def sortServices (l : List Nat) : List Nat :=
  pySorted (keyLe id) l

def dateStr (d : Nat) : String :=
  String.mk ((Nat.digits 10 d).reverse.map (fun k => Char.ofNat (48 + k)))

def lookupFM : List (List Nat × Nat) → List Nat → Option Nat
  | [], _ => none
  | (k, d) :: rest, key => if k = key then some d else lookupFM rest key

def setDK : List (Nat × String) → Nat → String → List (Nat × String)
  | [], d, v => [(d, v)]
  | (d0, v0) :: rest, d, v =>
    if d0 = d then (d, v) :: rest else (d0, v0) :: setDK rest d v

def lookupDK : List (Nat × String) → Nat → Option String
  | [], _ => none
  | (d0, v) :: rest, d => if d0 = d then some v else lookupDK rest d

def save_timetables_date_keys :
    List (Nat × List Nat) → List (List Nat × Nat) → List (Nat × String) → List (Nat × String)
  | [], _, dk => dk
  | (d, sids) :: rest, fm, dk =>
    match lookupFM fm (sortServices sids) with
    | some d0 => save_timetables_date_keys rest fm (setDK dk d (dateStr d0))
    | none =>
      save_timetables_date_keys rest (fm ++ [(sortServices sids, d)]) (setDK dk d (dateStr d))

def firstDateFor (datesMap : List (Nat × List Nat)) (key : List Nat) : Option Nat :=
  (datesMap.find? (fun p => sortServices p.2 == key)).map (fun p => p.1)

def firstOr (o1 o2 : Option Nat) : Nat :=
  match o1 with
  | some a => a
  | none =>
    match o2 with
    | some b => b
    | none => 0

structure CalendarRow where
  service_id : Nat
  monday : Nat
  tuesday : Nat
  wednesday : Nat
  thursday : Nat
  friday : Nat
  saturday : Nat
  sunday : Nat
  start_date : Nat
  end_date : Nat

structure CalendarDateRow where
  date : Nat
  service_id : Nat
  exception_type : Nat

def get_dates_in_range (start_date end_date : Nat) (weekdays : List Nat) : List Nat :=
  ((List.range (end_date + 1 - start_date)).map (fun i => start_date + i)).filter
    (fun d => weekdays.contains (d % 7))

def calendarWeekdays (r : CalendarRow) : List Nat :=
  ((((((if r.monday = 1 then [0] else []) ++
    (if r.tuesday = 1 then [1] else [])) ++
    (if r.wednesday = 1 then [2] else [])) ++
    (if r.thursday = 1 then [3] else [])) ++
    (if r.friday = 1 then [4] else [])) ++
    (if r.saturday = 1 then [5] else [])) ++
    (if r.saturday = 1 then [6] else [])

def applyCalendarRow (m : Nat → List Nat) (r : CalendarRow) : Nat → List Nat :=
  fun d =>
    if d ∈ get_dates_in_range r.start_date r.end_date (calendarWeekdays r) then
      m d ++ [r.service_id]
    else m d

def applyCalendarDateRow (m : Nat → List Nat) (e : CalendarDateRow) : Nat → List Nat :=
  fun d =>
    if d = e.date then
      if e.exception_type = 1 then m d ++ [e.service_id]
      else if e.exception_type = 2 then (m d).erase e.service_id
      else m d
    else m d

def get_services_by_date (rows : List CalendarRow) (exceptions : List CalendarDateRow) :
    Nat → List Nat :=
  exceptions.foldl applyCalendarDateRow (rows.foldl applyCalendarRow (fun _ => []))

def maxValues (m : List (Nat × Nat)) : Nat :=
  m.foldl (fun acc p => max acc p.2) 0

def containsKey (m : List (Nat × Nat)) (t : Nat) : Bool :=
  m.any (fun p => p.1 == t)

def assignTripsLoop : List (Nat × Nat) → Nat → List Nat → List (Nat × Nat)
  | m, _, [] => m
  | m, next, t :: ts =>
    if containsKey m t then assignTripsLoop m next ts
    else assignTripsLoop (m ++ [(t, next)]) (next + 1) ts

def get_scheduled_arrivals_trip_ids (m : List (Nat × Nat)) (trips : List Nat) :
    List (Nat × Nat) :=
  assignTripsLoop m (if m.isEmpty then 1 else maxValues m + 1) trips

def save_timetables_trip_ids (tripLists : List (List Nat)) : List (Nat × Nat) :=
  tripLists.foldl get_scheduled_arrivals_trip_ids []

structure ShapeInfo where
  count : Nat
  shape_id : Nat
  stop_ids : List Nat
deriving DecidableEq

abbrev ShapesMap := List (List Nat × ShapeInfo)

def shapesContains (m : ShapesMap) (key : List Nat) : Bool :=
  m.any (fun p => p.1 == key)

def shapesAddCount (m : ShapesMap) (key : List Nat) (delta : Nat) : ShapesMap :=
  m.map (fun p => if p.1 = key then (p.1, { p.2 with count := p.2.count + delta }) else p)

def shapesErase (m : ShapesMap) (key : List Nat) : ShapesMap :=
  m.filter (fun p => !(p.1 == key))

inductive ShapeMatch where
  | noMatch
  | mergeInto (key : List Nat)
  | supersede (key : List Nat) (count : Nat)

def shapeScanMatch (stop_ids : List Nat) : ShapesMap → Option ShapeMatch
  | [] => some .noMatch
  | (k, info) :: rest =>
    match is_subsequence stop_ids info.stop_ids with
    | none => none
    | some true => some (.mergeInto k)
    | some false =>
      match is_subsequence info.stop_ids stop_ids with
      | none => none
      | some true => some (.supersede k info.count)
      | some false => shapeScanMatch stop_ids rest

def processShape (m : ShapesMap) (shape_id count : Nat) (stop_ids : List Nat) :
    Option ShapesMap :=
  if shapesContains m stop_ids then some (shapesAddCount m stop_ids count)
  else
    match shapeScanMatch stop_ids m with
    | none => none
    | some .noMatch =>
      some (shapesAddCount (m ++ [(stop_ids, ⟨0, shape_id, stop_ids⟩)]) stop_ids count)
    | some (.mergeInto k) => some (shapesAddCount m k count)
    | some (.supersede k oc) =>
      some (shapesAddCount (shapesErase m k ++ [(stop_ids, ⟨0, shape_id, stop_ids⟩)])
        stop_ids (count + oc))

def countGe (a b : ShapeInfo) : Bool :=
  decide (b.count ≤ a.count)

def get_unique_shapes (shapes : List (Nat × Nat × List Nat)) : Option (List ShapeInfo) :=
  (shapes.foldl (fun acc sh => acc.bind (fun m => processShape m sh.1 sh.2.1 sh.2.2))
    (some [])).map
    (fun m => pySorted countGe (m.map (fun p => p.2)))

def pyInt (q : ℚ) : Int :=
  if q < 0 then ⌈q⌉ else ⌊q⌋

structure StopInput where
  id : Nat
  segDist : Nat → ℚ
  startPtDist : Nat → ℚ

structure StopGeo where
  distance : Int
  after_index : Nat
  offset : Int
deriving DecidableEq

def scanSegments (segDist : Nat → ℚ) : Nat → Nat → ℚ → Nat → ℚ × Nat
  | _, 0, best_offset, best_index => (best_offset, best_index)
  | idx, fuel + 1, best_offset, best_index =>
    let off := segDist idx
    let bo := if off < best_offset then off else best_offset
    let bi := if off < best_offset then idx else best_index
    if bo < 50 ∧ bo < off then (bo, bi)
    else scanSegments segDist (idx + 1) fuel bo bi

def get_stop_geometry (cumDist : Nat → ℚ) (numLines : Nat) (s : StopInput)
    (start_index : Nat) : StopGeo :=
  let r := scanSegments s.segDist start_index (numLines - start_index) 99999999 0
  { distance := pyInt (cumDist r.2 + s.startPtDist r.2)
    after_index := r.2
    offset := pyInt r.1 }

def processStops (cumDist : Nat → ℚ) (numLines : Nat) :
    List StopInput → Nat → List (Nat × StopGeo)
  | [], _ => []
  | s :: rest, start_index =>
    if (get_stop_geometry cumDist numLines s start_index).offset > 100 then
      processStops cumDist numLines rest start_index
    else
      (s.id, get_stop_geometry cumDist numLines s start_index) ::
        processStops cumDist numLines rest
          (get_stop_geometry cumDist numLines s start_index).after_index

def walkIndex (cumDist : Nat → ℚ) (numLines : Nat) :
    List StopInput → Nat → Nat
  | [], si => si
  | s :: rest, si =>
    if (get_stop_geometry cumDist numLines s si).offset > 100 then
      walkIndex cumDist numLines rest si
    else
      walkIndex cumDist numLines rest
        (get_stop_geometry cumDist numLines s si).after_index

structure DirData where
  stops : List Nat
  stop_geometry : List (Nat × StopGeo)

def get_direction_data (cumDist : Nat → ℚ) (numLines : Nat) (stops : List StopInput) :
    DirData :=
  { stops := stops.map (fun s => s.id)
    stop_geometry := processStops cumDist numLines stops 0 }

def cumDistOf (lens : List ℚ) (i : Nat) : ℚ :=
  (lens.take (i + 1)).foldl (fun a b => a + b) 0

def includedLoop (shape_stop_ids : List Nat) : List Nat → Nat → Bool
  | [], _ => true
  | sid :: rest, min_index =>
    match listIndexFrom shape_stop_ids sid min_index with
    | none => false
    | some i => includedLoop shape_stop_ids rest (i + 1)

def contains_included_stops (included_stop_ids shape_stop_ids : List Nat) : Bool :=
  includedLoop shape_stop_ids included_stop_ids 0

def contains_excluded_stop (excluded_stop_ids shape_stop_ids : List Nat) : Bool :=
  excluded_stop_ids.any (fun sid => (listIndex shape_stop_ids sid).isSome)

inductive PyErr where
  | nameError
  | exception (msg : String)
deriving DecidableEq

def get_custom_direction_data (included_stop_ids excluded_stop_ids : List Nat)
    (shapes : List ShapeInfo) : Except PyErr ShapeInfo :=
  let matching_shapes := shapes.filter (fun sh =>
    contains_included_stops included_stop_ids sh.stop_ids &&
      !contains_excluded_stop excluded_stop_ids sh.stop_ids)
  match matching_shapes with
  | [m] => Except.ok m
  | _ => Except.error PyErr.nameError

end Definitions

section Theorems

variable {α : Type*}

theorem sortedBy_singleton (le : α → α → Bool) (x : α) : SortedBy le [x] :=
  List.pairwise_singleton _ _

theorem sortedBy_cons {le : α → α → Bool} {y : α} {ys : List α} :
    SortedBy le (y :: ys) ↔ (∀ z ∈ ys, le y z = true) ∧ SortedBy le ys :=
  List.pairwise_cons

theorem pySorted_snoc (le : α → α → Bool) (l : List α) (x : α) :
    pySorted le (l ++ [x]) = insertLe le x (pySorted le l) := by
  simp [pySorted, List.foldl_append]

theorem pySorted_append (le : α → α → Bool) (l1 l2 : List α) :
    pySorted le (l1 ++ l2) =
      List.foldl (fun acc x => insertLe le x acc) (pySorted le l1) l2 := by
  simp only [pySorted]
  rw [List.foldl_append]

theorem mem_insertLe (le : α → α → Bool) (x : α) :
    ∀ (l : List α) (z : α), z ∈ insertLe le x l ↔ z = x ∨ z ∈ l := by
  intro l
  induction l with
  | nil => simp [insertLe]
  | cons y ys ih =>
    intro z
    by_cases h : le y x = true
    · rw [insertLe, if_pos h, List.mem_cons, List.mem_cons, ih]
      tauto
    · rw [insertLe, if_neg h, List.mem_cons, List.mem_cons]

theorem insertLe_sorted (le : α → α → Bool)
    (htot : ∀ a b, le a b = true ∨ le b a = true)
    (htrans : ∀ a b c, le a b = true → le b c = true → le a c = true)
    (x : α) : ∀ l : List α, SortedBy le l → SortedBy le (insertLe le x l) := by
  intro l
  induction l with
  | nil => intro _; exact sortedBy_singleton le x
  | cons y ys ih =>
    intro hs
    obtain ⟨hy, hys⟩ := sortedBy_cons.mp hs
    by_cases h : le y x = true
    · rw [insertLe, if_pos h]
      refine sortedBy_cons.mpr ⟨?_, ih hys⟩
      intro z hz
      rcases (mem_insertLe le x ys z).mp hz with hzx | hzy
      · exact hzx ▸ h
      · exact hy z hzy
    · rw [insertLe, if_neg h]
      have hxy : le x y = true := (htot x y).resolve_right (fun hc => h hc)
      refine sortedBy_cons.mpr ⟨?_, sortedBy_cons.mpr ⟨hy, hys⟩⟩
      intro z hz
      rcases List.mem_cons.mp hz with hzy | hzys
      · exact hzy ▸ hxy
      · exact htrans x y z hxy (hy z hzys)

theorem pySorted_sortedBy (le : α → α → Bool)
    (htot : ∀ a b, le a b = true ∨ le b a = true)
    (htrans : ∀ a b c, le a b = true → le b c = true → le a c = true)
    (l : List α) : SortedBy le (pySorted le l) := by
  suffices h : ∀ (l : List α) (acc : List α), SortedBy le acc →
      SortedBy le (l.foldl (fun acc x => insertLe le x acc) acc) by
    exact h l [] List.Pairwise.nil
  intro l
  induction l with
  | nil => intro acc hacc; simpa using hacc
  | cons y ys ih =>
    intro acc hacc
    exact ih (insertLe le y acc) (insertLe_sorted le htot htrans y acc hacc)

theorem insertLe_of_forall (le : α → α → Bool) (x : α) :
    ∀ l : List α, (∀ y ∈ l, le y x = true) → insertLe le x l = l ++ [x] := by
  intro l
  induction l with
  | nil => intro _; rfl
  | cons y ys ih =>
    intro h
    rw [insertLe, if_pos (h y (List.mem_cons_self y ys)), ih fun z hz => h z (List.mem_cons_of_mem y hz)]
    rfl

theorem pySorted_of_sortedBy (le : α → α → Bool) (l : List α)
    (hs : SortedBy le l) : pySorted le l = l := by
  induction l using List.reverseRecOn with
  | nil => rfl
  | append_singleton l x ih =>
    have hs' : l.Pairwise (fun a b => le a b = true) ∧ _ ∧
        ∀ a ∈ l, ∀ b ∈ [x], le a b = true := List.pairwise_append.mp hs
    obtain ⟨h1, _, h3⟩ := hs'
    rw [pySorted_snoc, ih h1]
    exact insertLe_of_forall le x l fun y hy => h3 y hy x (List.mem_singleton_self x)

theorem pySorted_idem (le : α → α → Bool)
    (htot : ∀ a b, le a b = true ∨ le b a = true)
    (htrans : ∀ a b c, le a b = true → le b c = true → le a c = true)
    (l : List α) : pySorted le (pySorted le l) = pySorted le l :=
  pySorted_of_sortedBy le (pySorted le l) (pySorted_sortedBy le htot htrans l)

theorem pySorted_append_left (le : α → α → Bool)
    (htot : ∀ a b, le a b = true ∨ le b a = true)
    (htrans : ∀ a b c, le a b = true → le b c = true → le a c = true)
    (l1 l2 : List α) : pySorted le (pySorted le l1 ++ l2) = pySorted le (l1 ++ l2) := by
  rw [pySorted_append, pySorted_append, pySorted_idem le htot htrans]

theorem keyLe_total (key : α → Nat) :
    ∀ a b, keyLe key a b = true ∨ keyLe key b a = true := by
  intro a b
  rcases Nat.le_total (key a) (key b) with h | h
  · exact Or.inl (by simp [keyLe, h])
  · exact Or.inr (by simp [keyLe, h])

theorem keyLe_trans (key : α → Nat) :
    ∀ a b c, keyLe key a b = true → keyLe key b c = true → keyLe key a c = true := by
  intro a b c hab hbc
  simp only [keyLe, decide_eq_true_eq] at hab hbc ⊢
  exact le_trans hab hbc

theorem insertLe_splits (le : α → α → Bool) (x : α) :
    ∀ l : List α, ∃ l1 l2, l = l1 ++ l2 ∧ insertLe le x l = l1 ++ x :: l2 := by
  intro l
  induction l with
  | nil => exact ⟨[], [], rfl, rfl⟩
  | cons y ys ih =>
    by_cases h : le y x = true
    · obtain ⟨l1, l2, he, hi⟩ := ih
      exact ⟨y :: l1, l2, by rw [he]; rfl, by rw [insertLe, if_pos h, hi]; rfl⟩
    · exact ⟨[], y :: ys, rfl, by rw [insertLe, if_neg h]; rfl⟩

theorem filter_insertLe_ne (key : α → Nat) (k : Nat) (x : α) (hx : ¬ key x = k)
    (l : List α) :
    (insertLe (keyLe key) x l).filter (fun a => key a == k) =
      l.filter (fun a => key a == k) := by
  obtain ⟨l1, l2, he, hi⟩ := insertLe_splits (keyLe key) x l
  rw [hi, he, List.filter_append, List.filter_append, List.filter_cons]
  simp [hx]

theorem filter_insertLe_eq (key : α → Nat) (k : Nat) (x : α) (hx : key x = k) :
    ∀ l : List α, SortedBy (keyLe key) l →
      (insertLe (keyLe key) x l).filter (fun a => key a == k) =
        l.filter (fun a => key a == k) ++ [x] := by
  intro l
  induction l with
  | nil => intro _; simp [insertLe, hx]
  | cons y ys ih =>
    intro hs
    obtain ⟨hy, hys⟩ := sortedBy_cons.mp hs
    by_cases h : keyLe key y x = true
    · rw [insertLe, if_pos h, List.filter_cons, List.filter_cons]
      by_cases hyk : key y = k
      · simp only [hyk, beq_self_eq_true, if_pos]
        rw [ih hys]
        rfl
      · simp only [beq_iff_eq, hyk, if_neg, ite_false]
        exact ih hys
    · have hkxy : key x < key y := by
        simp only [keyLe, decide_eq_true_eq] at h
        omega
      have hnone : ∀ z ∈ y :: ys, ¬ key z = k := by
        intro z hz
        rcases List.mem_cons.mp hz with hzy | hzys
        · subst hzy; omega
        · have := hy z hzys
          simp only [keyLe, decide_eq_true_eq] at this
          omega
      rw [insertLe, if_neg h, List.filter_cons]
      have hfilt : (y :: ys).filter (fun a => key a == k) = [] := by
        rw [List.filter_eq_nil_iff]
        intro z hz
        simpa using hnone z hz
      rw [hfilt]
      simp [hx]

theorem pySorted_filter_key (key : α → Nat) (k : Nat) (l : List α) :
    (pySorted (keyLe key) l).filter (fun a => key a == k) =
      l.filter (fun a => key a == k) := by
  induction l using List.reverseRecOn with
  | nil => rfl
  | append_singleton l x ih =>
    rw [pySorted_snoc, List.filter_append, List.filter_cons]
    by_cases hx : key x = k
    · rw [filter_insertLe_eq key k x hx (pySorted (keyLe key) l)
        (pySorted_sortedBy (keyLe key) (keyLe_total key) (keyLe_trans key) l), ih]
      simp [hx]
    · rw [filter_insertLe_ne key k x hx, ih]
      simp [hx]

theorem listIndex_eq_some_iff_mem [DecidableEq α] (x : α) :
    ∀ l : List α, (∃ i, listIndex l x = some i) ↔ x ∈ l := by
  intro l
  induction l with
  | nil => simp [listIndex]
  | cons y ys ih =>
    by_cases h : y = x
    · subst h
      simp [listIndex]
    · simp only [listIndex, if_neg h, List.mem_cons]
      constructor
      · rintro ⟨i, hi⟩
        rcases hmap : listIndex ys x with _ | j
        · rw [hmap] at hi; simp at hi
        · exact Or.inr (ih.mp ⟨j, hmap⟩)
      · rintro (hyx | hmem)
        · exact absurd hyx.symm h
        · obtain ⟨j, hj⟩ := ih.mpr hmem
          exact ⟨j + 1, by rw [hj]; rfl⟩

theorem length_pySlice (l : List α) (a b : Nat) :
    (pySlice l a b).length = min (b - a) (l.length - a) := by
  simp [pySlice]

theorem is_subsequence_true_iff :
    ∀ (x : Nat) (rest bigger : List Nat),
      is_subsequence (x :: rest) bigger = some true ↔
        ∃ i, listIndex bigger x = some i ∧
          pySlice bigger i (i + (x :: rest).length) = x :: rest := by
  intro x rest bigger
  by_cases hlen : (x :: rest).length > bigger.length
  · rw [is_subsequence, if_pos hlen]
    constructor
    · intro h; simp at h
    · rintro ⟨i, _, hslice⟩
      have hl := congrArg List.length hslice
      rw [length_pySlice] at hl
      have hle : (x :: rest).length ≤ bigger.length - i := by
        rw [← hl]; exact Nat.min_le_right _ _
      exfalso
      omega
  · rw [is_subsequence, if_neg hlen]
    rcases hidx : listIndex bigger x with _ | i
    · simp only
      constructor
      · intro h; simp at h
      · rintro ⟨i, hi, _⟩
        exact Option.noConfusion hi
    · simp only
      by_cases hend : i + (x :: rest).length > bigger.length
      · rw [if_pos hend]
        constructor
        · intro h; simp at h
        · rintro ⟨i', hi', hslice⟩
          have hii : i = i' := by injection hi'
          subst hii
          have hl := congrArg List.length hslice
          rw [length_pySlice] at hl
          have hle : (x :: rest).length ≤ bigger.length - i := by
            rw [← hl]; exact Nat.min_le_right _ _
          have hpos : (x :: rest).length = rest.length + 1 := List.length_cons x rest
          exfalso
          omega
      · rw [if_neg hend]
        constructor
        · intro h
          have hd : x :: rest = pySlice bigger i (i + (x :: rest).length) := by
            have h2 := Option.some.inj h
            exact of_decide_eq_true h2
          exact ⟨i, rfl, hd.symm⟩
        · rintro ⟨i', hi', hslice⟩
          have hii : i = i' := by injection hi'
          subst hii
          rw [decide_eq_true (hslice.symm)]

theorem is_subsequence_isSome :
    ∀ smaller bigger : List Nat, smaller ≠ [] → ∃ b, is_subsequence smaller bigger = some b := by
  intro smaller bigger hne
  match smaller with
  | x :: rest =>
    by_cases hlen : (x :: rest).length > bigger.length
    · exact ⟨false, by rw [is_subsequence, if_pos hlen]⟩
    · rw [is_subsequence, if_neg hlen]
      rcases hidx : listIndex bigger x with _ | i
      · exact ⟨false, rfl⟩
      · simp only
        by_cases hend : i + (x :: rest).length > bigger.length
        · exact ⟨false, by rw [if_pos hend]⟩
        · exact ⟨_, by rw [if_neg hend]⟩

theorem is_subsequence_nil (bigger : List Nat) :
    is_subsequence ([] : List Nat) bigger = none := by
  rw [is_subsequence, if_neg (by simp)]

theorem is_subsequence_none_iff (smaller bigger : List Nat) :
    is_subsequence smaller bigger = none ↔ smaller = [] := by
  constructor
  · intro h
    match hs : smaller with
    | [] => rfl
    | x :: rest =>
      obtain ⟨b, hb⟩ := is_subsequence_isSome (x :: rest) bigger (by simp)
      rw [hb] at h
      exact Option.noConfusion h
  · intro h
    subst h
    exact is_subsequence_nil bigger

theorem is_subsequence_self (l : List Nat) (h : l ≠ []) : is_subsequence l l = some true := by
  match hl : l with
  | [] => exact absurd rfl h
  | x :: rest =>
    refine (is_subsequence_true_iff x rest (x :: rest)).mpr ⟨0, ?_, ?_⟩
    · rw [listIndex, if_pos rfl]
    · rw [pySlice]
      simp

theorem is_subsequence_spec :
    (∀ (x : Nat) (rest bigger : List Nat),
      is_subsequence (x :: rest) bigger = some true ↔
        ∃ i, listIndex bigger x = some i ∧
          pySlice bigger i (i + (x :: rest).length) = x :: rest)
    ∧ is_subsequence [2, 3] [1, 2, 3, 4] = some true
    ∧ is_subsequence [2, 4] [1, 2, 3, 4] = some false :=
  ⟨is_subsequence_true_iff, by decide, by decide⟩

theorem is_subsequence_totality :
    (∀ smaller bigger : List Nat, smaller ≠ [] → ∃ b, is_subsequence smaller bigger = some b)
    ∧ (∀ bigger : List Nat, bigger ≠ [] → is_subsequence ([] : List Nat) bigger = none) :=
  ⟨is_subsequence_isSome, fun bigger _ => is_subsequence_nil bigger⟩

theorem is_subsequence_totality_witness :
    (∃ b, is_subsequence [2, 4] [1, 2, 3, 4] = some b)
    ∧ is_subsequence ([] : List Nat) [1] = none :=
  ⟨is_subsequence_totality.1 [2, 4] [1, 2, 3, 4] (by decide),
   is_subsequence_totality.2 [1] (by decide)⟩

theorem arrLe_total : ∀ a b, arrLe a b = true ∨ arrLe b a = true :=
  keyLe_total _

theorem arrLe_trans : ∀ a b c, arrLe a b = true → arrLe b c = true → arrLe a c = true :=
  keyLe_trans _

theorem save_timetables_merge_foldl (lists : List (List Arrival)) (acc : List Arrival) :
    lists.foldl (fun acc l => pySorted arrLe (acc ++ l)) (pySorted arrLe acc) =
      pySorted arrLe (acc ++ lists.flatten) := by
  induction lists generalizing acc with
  | nil => simp
  | cons l ls ih =>
    rw [List.foldl_cons]
    have h1 : pySorted arrLe (pySorted arrLe acc ++ l) = pySorted arrLe (acc ++ l) :=
      pySorted_append_left arrLe arrLe_total arrLe_trans acc l
    rw [h1, ih (acc ++ l), List.flatten_cons, List.append_assoc]

theorem save_timetables_merge_spec :
    (∀ lists : List (List Arrival),
      save_timetables_merge lists = pySorted arrLe lists.flatten)
    ∧ (∀ (l : List Arrival) (k : Nat),
      (pySorted arrLe l).filter (fun a => a.t == k) = l.filter (fun a => a.t == k))
    ∧ (∀ lists : List (List Arrival),
      (save_timetables_merge lists).Pairwise (fun a b => a.t ≤ b.t))
    ∧ save_timetables_merge [[⟨28800, 1, none⟩, ⟨32400, 1, none⟩], [⟨30600, 2, none⟩]] =
        [⟨28800, 1, none⟩, ⟨30600, 2, none⟩, ⟨32400, 1, none⟩] := by
  have hmain : ∀ lists : List (List Arrival),
      save_timetables_merge lists = pySorted arrLe lists.flatten := by
    intro lists
    have h0 : pySorted arrLe ([] : List Arrival) = [] := rfl
    rw [save_timetables_merge, ← h0, save_timetables_merge_foldl lists []]
    rfl
  refine ⟨hmain, ?_, ?_, by decide⟩
  · intro l k
    exact pySorted_filter_key (fun a => a.t) k l
  · intro lists
    rw [hmain lists]
    have hs := pySorted_sortedBy arrLe arrLe_total arrLe_trans lists.flatten
    exact hs.imp (fun h => of_decide_eq_true h)

theorem digitChar_inj : ∀ a < 10, ∀ b < 10,
    Char.ofNat (48 + a) = Char.ofNat (48 + b) → a = b := by decide

theorem map_digitChar_inj :
    ∀ l1 l2 : List Nat, (∀ x ∈ l1, x < 10) → (∀ x ∈ l2, x < 10) →
      l1.map (fun k => Char.ofNat (48 + k)) = l2.map (fun k => Char.ofNat (48 + k)) →
      l1 = l2 := by
  intro l1
  induction l1 with
  | nil =>
    intro l2 _ _ h
    cases l2 with
    | nil => rfl
    | cons b m => exact absurd h (by simp)
  | cons a l ih =>
    intro l2 h1 h2 h
    cases l2 with
    | nil => exact absurd h (by simp)
    | cons b m =>
      rw [List.map_cons, List.map_cons] at h
      have hab : a = b :=
        digitChar_inj a (h1 a (List.mem_cons_self a l)) b (h2 b (List.mem_cons_self b m))
          (List.head_eq_of_cons_eq h)
      have htail : l = m :=
        ih m (fun x hx => h1 x (List.mem_cons_of_mem a hx))
          (fun x hx => h2 x (List.mem_cons_of_mem b hx)) (List.tail_eq_of_cons_eq h)
      rw [hab, htail]

theorem dateStr_injective : ∀ d1 d2 : Nat, dateStr d1 = dateStr d2 → d1 = d2 := by
  intro d1 d2 h
  have hdata : (Nat.digits 10 d1).reverse.map (fun k => Char.ofNat (48 + k)) =
      (Nat.digits 10 d2).reverse.map (fun k => Char.ofNat (48 + k)) := by
    injection h
  have hrev : (Nat.digits 10 d1).reverse = (Nat.digits 10 d2).reverse :=
    map_digitChar_inj _ _
      (fun x hx => Nat.digits_lt_base (by norm_num) (List.mem_reverse.mp hx))
      (fun x hx => Nat.digits_lt_base (by norm_num) (List.mem_reverse.mp hx)) hdata
  have hdig : Nat.digits 10 d1 = Nat.digits 10 d2 := List.reverse_injective hrev
  exact Nat.digits_inj_iff.mp hdig

theorem lookupDK_setDK_self (d : Nat) (v : String) :
    ∀ dk : List (Nat × String), lookupDK (setDK dk d v) d = some v := by
  intro dk
  induction dk with
  | nil => simp [setDK, lookupDK]
  | cons p rest ih =>
    obtain ⟨d0, v0⟩ := p
    by_cases h : d0 = d
    · rw [setDK, if_pos h, lookupDK, if_pos rfl]
    · rw [setDK, if_neg h, lookupDK, if_neg h]
      exact ih

theorem lookupDK_setDK_ne (d d' : Nat) (v : String) (hne : d' ≠ d) :
    ∀ dk : List (Nat × String), lookupDK (setDK dk d' v) d = lookupDK dk d := by
  intro dk
  induction dk with
  | nil => simp [setDK, lookupDK, hne]
  | cons p rest ih =>
    obtain ⟨d0, v0⟩ := p
    by_cases h : d0 = d'
    · rw [setDK, if_pos h, lookupDK, if_neg hne, lookupDK, if_neg]
      rw [h]; exact hne
    · rw [setDK, if_neg h, lookupDK, lookupDK]
      by_cases h2 : d0 = d
      · rw [if_pos h2, if_pos h2]
      · rw [if_neg h2, if_neg h2]
        exact ih

theorem lookupDK_date_keys_untouched :
    ∀ (dm : List (Nat × List Nat)) (fm : List (List Nat × Nat)) (dk : List (Nat × String))
      (d : Nat), d ∉ dm.map Prod.fst →
      lookupDK (save_timetables_date_keys dm fm dk) d = lookupDK dk d := by
  intro dm
  induction dm with
  | nil => intro fm dk d _; rfl
  | cons p rest ih =>
    obtain ⟨d', sids⟩ := p
    intro fm dk d hd
    rw [List.map_cons, List.mem_cons] at hd
    push_neg at hd
    obtain ⟨hne, hrest⟩ := hd
    rw [save_timetables_date_keys]
    rcases hfm : lookupFM fm (sortServices sids) with _ | d0
    · simp only
      rw [ih _ _ d hrest, lookupDK_setDK_ne d d' _ (fun h => hne h.symm)]
    · simp only
      rw [ih _ _ d hrest, lookupDK_setDK_ne d d' _ (fun h => hne h.symm)]

theorem lookupFM_append_of_some (fm : List (List Nat × Nat)) (k' : List Nat) (d' : Nat)
    (key : List Nat) (x : Nat) (h : lookupFM fm key = some x) :
    lookupFM (fm ++ [(k', d')]) key = some x := by
  induction fm with
  | nil => exact absurd h (by simp [lookupFM])
  | cons p rest ih =>
    obtain ⟨k0, d0⟩ := p
    rw [lookupFM] at h
    by_cases hk : k0 = key
    · rw [if_pos hk] at h
      rw [List.cons_append, lookupFM, if_pos hk]
      exact h
    · rw [if_neg hk] at h
      rw [List.cons_append, lookupFM, if_neg hk]
      exact ih h

theorem lookupFM_append_of_none (fm : List (List Nat × Nat)) (k' : List Nat) (d' : Nat)
    (key : List Nat) (h : lookupFM fm key = none) :
    lookupFM (fm ++ [(k', d')]) key = if k' = key then some d' else none := by
  induction fm with
  | nil => rfl
  | cons p rest ih =>
    obtain ⟨k0, d0⟩ := p
    rw [lookupFM] at h
    by_cases hk : k0 = key
    · rw [if_pos hk] at h
      exact absurd h (by simp)
    · rw [if_neg hk] at h
      rw [List.cons_append, lookupFM, if_neg hk]
      exact ih h

theorem date_keys_step_some (d : Nat) (sids : List Nat) (rest : List (Nat × List Nat))
    (fm : List (List Nat × Nat)) (dk : List (Nat × String)) (d0 : Nat)
    (h : lookupFM fm (sortServices sids) = some d0) :
    save_timetables_date_keys ((d, sids) :: rest) fm dk =
      save_timetables_date_keys rest fm (setDK dk d (dateStr d0)) := by
  simp only [save_timetables_date_keys, h]

theorem date_keys_step_none (d : Nat) (sids : List Nat) (rest : List (Nat × List Nat))
    (fm : List (List Nat × Nat)) (dk : List (Nat × String))
    (h : lookupFM fm (sortServices sids) = none) :
    save_timetables_date_keys ((d, sids) :: rest) fm dk =
      save_timetables_date_keys rest (fm ++ [(sortServices sids, d)])
        (setDK dk d (dateStr d)) := by
  simp only [save_timetables_date_keys, h]

theorem firstDateFor_cons (d' : Nat) (s' : List Nat) (rest : List (Nat × List Nat))
    (key : List Nat) :
    firstDateFor ((d', s') :: rest) key =
      if sortServices s' = key then some d' else firstDateFor rest key := by
  by_cases h : sortServices s' = key
  · rw [firstDateFor, List.find?_cons_of_pos _ (by simpa using h), if_pos h]
    rfl
  · rw [firstDateFor, List.find?_cons_of_neg _ (by simpa using h), if_neg h]
    rfl

theorem mem_fst_unique {β : Type*} :
    ∀ (l : List (Nat × β)) (d : Nat) (a b : β),
      (l.map Prod.fst).Nodup → (d, a) ∈ l → (d, b) ∈ l → a = b := by
  intro l
  induction l with
  | nil => intro d a b _ ha _; exact absurd ha (List.not_mem_nil _)
  | cons p rest ih =>
    intro d a b hnd ha hb
    rw [List.map_cons, List.nodup_cons] at hnd
    obtain ⟨hp, hrest⟩ := hnd
    rcases List.mem_cons.mp ha with ha1 | ha2 <;> rcases List.mem_cons.mp hb with hb1 | hb2
    · rw [← ha1] at hb1
      exact ((Prod.mk.injEq _ _ _ _).mp hb1.symm).2
    · exfalso
      have hd : d ∈ List.map Prod.fst rest := List.mem_map_of_mem Prod.fst hb2
      rw [← ha1] at hp
      exact hp hd
    · exfalso
      have hd : d ∈ List.map Prod.fst rest := List.mem_map_of_mem Prod.fst ha2
      rw [← hb1] at hp
      exact hp hd
    · exact ih d a b hrest ha2 hb2

theorem date_keys_char :
    ∀ (dm : List (Nat × List Nat)) (fm : List (List Nat × Nat)) (dk : List (Nat × String))
      (d : Nat) (s : List Nat),
      (dm.map Prod.fst).Nodup → (d, s) ∈ dm →
      lookupDK (save_timetables_date_keys dm fm dk) d =
        some (dateStr (firstOr (lookupFM fm (sortServices s))
          (firstDateFor dm (sortServices s)))) := by
  intro dm
  induction dm with
  | nil => intro fm dk d s _ hmem; exact absurd hmem (List.not_mem_nil _)
  | cons p rest ih =>
    obtain ⟨d', s'⟩ := p
    intro fm dk d s hnd hmem
    rw [List.map_cons, List.nodup_cons] at hnd
    obtain ⟨hp, hrest⟩ := hnd
    by_cases hd : d' = d
    · subst hd
      have hss : s = s' := by
        rcases List.mem_cons.mp hmem with h1 | h2
        · exact ((Prod.mk.injEq _ _ _ _).mp h1).2
        · exact absurd (List.mem_map_of_mem Prod.fst h2) hp
      subst hss
      rcases hfm : lookupFM fm (sortServices s) with _ | d0
      · rw [date_keys_step_none d' s rest fm dk hfm,
          lookupDK_date_keys_untouched rest _ _ d' hp, lookupDK_setDK_self,
          firstDateFor_cons, if_pos rfl]
        rfl
      · rw [date_keys_step_some d' s rest fm dk d0 hfm,
          lookupDK_date_keys_untouched rest _ _ d' hp, lookupDK_setDK_self]
        rfl
    · have hmem2 : (d, s) ∈ rest := by
        rcases List.mem_cons.mp hmem with h1 | h2
        · exact absurd ((Prod.mk.injEq _ _ _ _).mp h1).1.symm hd
        · exact h2
      rcases hfm : lookupFM fm (sortServices s') with _ | d0
      · rw [date_keys_step_none d' s' rest fm dk hfm, ih _ _ d s hrest hmem2,
          firstDateFor_cons]
        rcases hfm2 : lookupFM fm (sortServices s) with _ | x
        · rw [lookupFM_append_of_none fm _ d' _ hfm2]
          by_cases hk : sortServices s' = sortServices s
          · rw [if_pos hk, if_pos hk]
            rfl
          · rw [if_neg hk, if_neg hk]
        · rw [lookupFM_append_of_some fm _ d' _ x hfm2]
          rfl
      · rw [date_keys_step_some d' s' rest fm dk d0 hfm, ih _ _ d s hrest hmem2,
          firstDateFor_cons]
        by_cases hk : sortServices s' = sortServices s
        · have hfm2 : lookupFM fm (sortServices s) = some d0 := by
            rw [← hk]
            exact hfm
          rw [hfm2, if_pos hk]
          rfl
        · rw [if_neg hk]

theorem save_timetables_date_keys_spec :
    ∀ (dm : List (Nat × List Nat)) (dk0 : List (Nat × String))
      (d1 : Nat) (s1 : List Nat) (d2 : Nat) (s2 : List Nat),
      (dm.map Prod.fst).Nodup → (d1, s1) ∈ dm → (d2, s2) ∈ dm →
      ((lookupDK (save_timetables_date_keys dm [] dk0) d1 =
          lookupDK (save_timetables_date_keys dm [] dk0) d2) ↔
        sortServices s1 = sortServices s2)
      ∧ ∃ f1, firstDateFor dm (sortServices s1) = some f1 ∧
          lookupDK (save_timetables_date_keys dm [] dk0) d1 = some (dateStr f1) := by
  intro dm dk0 d1 s1 d2 s2 hnd hm1 hm2
  have hchar1 := date_keys_char dm [] dk0 d1 s1 hnd hm1
  have hchar2 := date_keys_char dm [] dk0 d2 s2 hnd hm2
  have hfind1 : (dm.find? (fun p => sortServices p.2 == sortServices s1)).isSome := by
    rw [List.find?_isSome]
    exact ⟨(d1, s1), hm1, by simp⟩
  have hfind2 : (dm.find? (fun p => sortServices p.2 == sortServices s2)).isSome := by
    rw [List.find?_isSome]
    exact ⟨(d2, s2), hm2, by simp⟩
  obtain ⟨p1, hp1⟩ := Option.isSome_iff_exists.mp hfind1
  obtain ⟨p2, hp2⟩ := Option.isSome_iff_exists.mp hfind2
  obtain ⟨f1, t1⟩ := p1
  obtain ⟨f2, t2⟩ := p2
  have hk1 : sortServices t1 = sortServices s1 := by
    have h := List.find?_some hp1
    simpa using h
  have hk2 : sortServices t2 = sortServices s2 := by
    have h := List.find?_some hp2
    simpa using h
  have hmem1 : (f1, t1) ∈ dm := List.mem_of_find?_eq_some hp1
  have hmem2 : (f2, t2) ∈ dm := List.mem_of_find?_eq_some hp2
  have hfd1 : firstDateFor dm (sortServices s1) = some f1 := by
    rw [firstDateFor, hp1]
    rfl
  have hfd2 : firstDateFor dm (sortServices s2) = some f2 := by
    rw [firstDateFor, hp2]
    rfl
  have hl1 : lookupDK (save_timetables_date_keys dm [] dk0) d1 = some (dateStr f1) := by
    rw [hchar1, hfd1]
    rfl
  have hl2 : lookupDK (save_timetables_date_keys dm [] dk0) d2 = some (dateStr f2) := by
    rw [hchar2, hfd2]
    rfl
  refine ⟨⟨?_, ?_⟩, f1, hfd1, hl1⟩
  · intro heq
    rw [hl1, hl2] at heq
    have hds : dateStr f1 = dateStr f2 := Option.some.inj heq
    have hf : f1 = f2 := dateStr_injective f1 f2 hds
    subst hf
    have ht : t1 = t2 := mem_fst_unique dm f1 t1 t2 hnd hmem1 hmem2
    rw [← hk1, ← hk2, ht]
  · intro hk
    rw [hl1, hl2]
    have hf : f1 = f2 := by
      rw [hk] at hfd1
      exact Option.some.inj (hfd1.symm.trans hfd2)
    rw [hf]

theorem save_timetables_date_keys_spec_witness :
    (lookupDK (save_timetables_date_keys [(5, [2, 1]), (6, [1, 2]), (7, [3])] [] []) 5 =
        lookupDK (save_timetables_date_keys [(5, [2, 1]), (6, [1, 2]), (7, [3])] [] []) 6)
    ∧ ∃ f1, firstDateFor [(5, [2, 1]), (6, [1, 2]), (7, [3])] (sortServices [2, 1]) = some f1 ∧
        lookupDK (save_timetables_date_keys [(5, [2, 1]), (6, [1, 2]), (7, [3])] [] []) 5 =
          some (dateStr f1) := by
  have h := save_timetables_date_keys_spec [(5, [2, 1]), (6, [1, 2]), (7, [3])] []
    5 [2, 1] 6 [1, 2] (by decide) (by decide) (by decide)
  exact ⟨h.1.mpr (by decide), h.2⟩

theorem get_services_by_date_sunday_bug :
    get_services_by_date
      [{ service_id := 7, monday := 0, tuesday := 0, wednesday := 0, thursday := 0,
         friday := 0, saturday := 0, sunday := 1, start_date := 0, end_date := 13 }] [] 6 = []
    ∧ get_services_by_date
      [{ service_id := 7, monday := 0, tuesday := 0, wednesday := 0, thursday := 0,
         friday := 0, saturday := 1, sunday := 0, start_date := 0, end_date := 13 }] [] 6 = [7]
    ∧ ∀ d, get_services_by_date
      [{ service_id := 7, monday := 0, tuesday := 0, wednesday := 0, thursday := 0,
         friday := 0, saturday := 0, sunday := 1, start_date := 0, end_date := 13 }] [] d = [] := by
  refine ⟨by decide, by decide, ?_⟩
  intro d
  simp only [get_services_by_date, List.foldl_cons, List.foldl_nil, applyCalendarRow]
  have h1 : get_dates_in_range 0 13 (calendarWeekdays
      { service_id := 7, monday := 0, tuesday := 0, wednesday := 0, thursday := 0,
        friday := 0, saturday := 0, sunday := 1, start_date := 0, end_date := 13 }) = [] := by
    decide
  rw [h1]
  simp

theorem containsKey_eq_false_iff (m : List (Nat × Nat)) (t : Nat) :
    containsKey m t = false ↔ t ∉ m.map Prod.fst := by
  constructor
  · intro h hc
    obtain ⟨p, hp, hpt⟩ := List.mem_map.mp hc
    have hck : containsKey m t = true := by
      rw [containsKey, List.any_eq_true]
      exact ⟨p, hp, by simp [hpt]⟩
    rw [h] at hck
    exact Bool.noConfusion hck
  · intro h
    rcases hb : containsKey m t with _ | _
    · rfl
    · exfalso
      rw [containsKey, List.any_eq_true] at hb
      obtain ⟨p, hp, hpt⟩ := hb
      exact h (List.mem_map.mpr ⟨p, hp, by simpa using hpt⟩)

theorem foldl_max_range' (n : Nat) : ∀ a : Nat, (List.range' 1 n).foldl max a = max a n := by
  induction n with
  | zero => intro a; simp
  | succ k ih =>
    intro a
    rw [List.range'_concat, List.foldl_append, ih]
    simp only [List.foldl_cons, List.foldl_nil]
    omega

theorem maxValues_of_range (m : List (Nat × Nat))
    (hval : m.map Prod.snd = List.range' 1 m.length) : maxValues m = m.length := by
  have h : maxValues m = (m.map Prod.snd).foldl max 0 := by
    rw [maxValues, List.foldl_map]
  rw [h, hval, foldl_max_range']
  omega

theorem assignTripsLoop_invariant :
    ∀ (ts : List Nat) (m : List (Nat × Nat)),
      m.map Prod.snd = List.range' 1 m.length → (m.map Prod.fst).Nodup →
      ((assignTripsLoop m (m.length + 1) ts).map Prod.snd =
          List.range' 1 (assignTripsLoop m (m.length + 1) ts).length)
        ∧ ((assignTripsLoop m (m.length + 1) ts).map Prod.fst).Nodup
        ∧ m <+: assignTripsLoop m (m.length + 1) ts := by
  intro ts
  induction ts with
  | nil => intro m hval hkeys; exact ⟨hval, hkeys, List.prefix_refl m⟩
  | cons t ts ih =>
    intro m hval hkeys
    rcases hc : containsKey m t with _ | _
    · rw [assignTripsLoop, hc]
      simp only [Bool.false_eq_true, if_false]
      have hval2 : (m ++ [(t, m.length + 1)]).map Prod.snd =
          List.range' 1 (m ++ [(t, m.length + 1)]).length := by
        have hlen : (m ++ [(t, m.length + 1)]).length = m.length + 1 := by simp
        rw [hlen, List.map_append, hval, List.range'_concat, one_mul,
          Nat.add_comm 1 m.length]
        simp
      have hkeys2 : ((m ++ [(t, m.length + 1)]).map Prod.fst).Nodup := by
        rw [List.map_append, List.nodup_append]
        refine ⟨hkeys, by simp, ?_⟩
        intro a ha hb
        have hat : a = t := by simpa using hb
        subst hat
        exact (containsKey_eq_false_iff m a).mp hc ha
      have hlen2 : (m ++ [(t, m.length + 1)]).length = m.length + 1 := by simp
      have hres := ih (m ++ [(t, m.length + 1)]) hval2 hkeys2
      rw [hlen2] at hres
      exact ⟨hres.1, hres.2.1,
        (List.prefix_append m [(t, m.length + 1)]).trans hres.2.2⟩
    · rw [assignTripsLoop, hc]
      simp only [if_true]
      exact ih m hval hkeys

theorem get_scheduled_arrivals_trip_ids_next (m : List (Nat × Nat))
    (hval : m.map Prod.snd = List.range' 1 m.length) (trips : List Nat) :
    get_scheduled_arrivals_trip_ids m trips = assignTripsLoop m (m.length + 1) trips := by
  rw [get_scheduled_arrivals_trip_ids]
  rcases hm : m.isEmpty with _ | _
  · simp only [Bool.false_eq_true, if_false]
    rw [maxValues_of_range m hval]
  · simp only [if_true]
    rw [List.isEmpty_iff] at hm
    subst hm
    rfl

theorem save_timetables_trip_ids_invariant :
    ∀ (tls : List (List Nat)) (m : List (Nat × Nat)),
      m.map Prod.snd = List.range' 1 m.length → (m.map Prod.fst).Nodup →
      ((tls.foldl get_scheduled_arrivals_trip_ids m).map Prod.snd =
          List.range' 1 (tls.foldl get_scheduled_arrivals_trip_ids m).length)
        ∧ ((tls.foldl get_scheduled_arrivals_trip_ids m).map Prod.fst).Nodup
        ∧ m <+: tls.foldl get_scheduled_arrivals_trip_ids m := by
  intro tls
  induction tls with
  | nil => intro m hval hkeys; exact ⟨hval, hkeys, List.prefix_refl m⟩
  | cons ts tls ih =>
    intro m hval hkeys
    rw [List.foldl_cons, get_scheduled_arrivals_trip_ids_next m hval ts]
    have hstep := assignTripsLoop_invariant ts m hval hkeys
    have hres := ih (assignTripsLoop m (m.length + 1) ts) hstep.1 hstep.2.1
    exact ⟨hres.1, hres.2.1, hstep.2.2.trans hres.2.2⟩

theorem trip_ids_dense_spec :
    ∀ tripLists : List (List Nat),
      ((save_timetables_trip_ids tripLists).map Prod.snd =
          List.range' 1 (save_timetables_trip_ids tripLists).length)
      ∧ ((save_timetables_trip_ids tripLists).map Prod.fst).Nodup
      ∧ ((save_timetables_trip_ids tripLists).map Prod.snd).Nodup
      ∧ ∀ pre suf, tripLists = pre ++ suf →
          save_timetables_trip_ids pre <+: save_timetables_trip_ids tripLists := by
  intro tripLists
  have hmain := save_timetables_trip_ids_invariant tripLists [] (by rfl) (by simp)
  refine ⟨hmain.1, hmain.2.1, ?_, ?_⟩
  · have hm : (save_timetables_trip_ids tripLists).map Prod.snd =
        List.range' 1 (save_timetables_trip_ids tripLists).length := hmain.1
    rw [hm]
    exact List.nodup_range' 1 _
  · intro pre suf hsplit
    rw [save_timetables_trip_ids, save_timetables_trip_ids, hsplit, List.foldl_append]
    have hpre := save_timetables_trip_ids_invariant pre [] (by rfl) (by simp)
    exact (save_timetables_trip_ids_invariant suf
      (pre.foldl get_scheduled_arrivals_trip_ids []) hpre.1 hpre.2.1).2.2

theorem trip_ids_dense_spec_witness :
    save_timetables_trip_ids [[10, 11]] <+: save_timetables_trip_ids [[10, 11], [11, 12]]
    ∧ (save_timetables_trip_ids [[10, 11], [11, 12]]) = [(10, 1), (11, 2), (12, 3)] :=
  ⟨(trip_ids_dense_spec [[10, 11], [11, 12]]).2.2.2 [[10, 11]] [[11, 12]] rfl, by decide⟩

theorem countGe_total : ∀ a b, countGe a b = true ∨ countGe b a = true := by
  intro a b
  rcases Nat.le_total (a.count) (b.count) with h | h
  · exact Or.inr (by simp [countGe, h])
  · exact Or.inl (by simp [countGe, h])

theorem countGe_trans : ∀ a b c, countGe a b = true → countGe b c = true → countGe a c = true := by
  intro a b c hab hbc
  simp only [countGe, decide_eq_true_eq] at hab hbc ⊢
  exact le_trans hbc hab

theorem get_unique_shapes_spec :
    (∀ (s1 c1 s2 c2 : Nat) (ids1 ids2 : List Nat),
      (is_subsequence ids2 ids1 = some true ∨ is_subsequence ids1 ids2 = some true) →
      ∃ r : ShapeInfo, get_unique_shapes [(s1, c1, ids1), (s2, c2, ids2)] = some [r] ∧
        r.count = c1 + c2)
    ∧ (∀ (s1 c1 s2 c2 : Nat) (ids1 ids2 : List Nat), c2 ≤ c1 →
      is_subsequence ids2 ids1 = some false → is_subsequence ids1 ids2 = some false →
      get_unique_shapes [(s1, c1, ids1), (s2, c2, ids2)] =
        some [⟨c1, s1, ids1⟩, ⟨c2, s2, ids2⟩])
    ∧ (∀ (shapes : List (Nat × Nat × List Nat)) (res : List ShapeInfo),
      get_unique_shapes shapes = some res →
      res.Pairwise (fun a b => b.count ≤ a.count)) := by
  have h1 : ∀ (s1 c1 : Nat) (ids1 : List Nat),
      processShape [] s1 c1 ids1 = some [(ids1, ⟨c1, s1, ids1⟩)] := by
    intro s1 c1 ids1
    simp [processShape, shapesContains, shapeScanMatch, shapesAddCount]
  have hrun : ∀ (s1 c1 : Nat) (ids1 : List Nat) (s2 c2 : Nat) (ids2 : List Nat)
      (m2 : ShapesMap),
      processShape [(ids1, ⟨c1, s1, ids1⟩)] s2 c2 ids2 = some m2 →
      get_unique_shapes [(s1, c1, ids1), (s2, c2, ids2)] =
        some (pySorted countGe (m2.map (fun p => p.2))) := by
    intro s1 c1 ids1 s2 c2 ids2 m2 h2
    rw [get_unique_shapes]
    simp only [List.foldl_cons, List.foldl_nil, Option.some_bind]
    rw [h1 s1 c1 ids1]
    simp only [Option.some_bind]
    rw [h2, Option.map_some']
  refine ⟨?_, ?_, ?_⟩
  · intro s1 c1 s2 c2 ids1 ids2 hrel
    by_cases heq : ids1 = ids2
    · subst heq
      have h2 : processShape [(ids1, ⟨c1, s1, ids1⟩)] s2 c2 ids1 =
          some [(ids1, ⟨c1 + c2, s1, ids1⟩)] := by
        simp [processShape, shapesContains, shapesAddCount]
      exact ⟨⟨c1 + c2, s1, ids1⟩, hrun s1 c1 ids1 s2 c2 ids1 _ h2, rfl⟩
    · rcases h21 : is_subsequence ids2 ids1 with _ | b21
      · have h2nil : ids2 = [] := (is_subsequence_none_iff ids2 ids1).mp h21
        subst h2nil
        rcases hrel with hr | hr
        · rw [h21] at hr
          exact Option.noConfusion hr
        · exfalso
          cases hi1 : ids1 with
          | nil => exact heq (hi1.trans rfl)
          | cons x rest =>
            rw [hi1] at hr
            obtain ⟨i, hi, _⟩ := (is_subsequence_true_iff x rest []).mp hr
            exact Option.noConfusion hi
      · rcases b21 with _ | _
        · have hr : is_subsequence ids1 ids2 = some true := by
            rcases hrel with hr | hr
            · rw [h21] at hr
              simp at hr
            · exact hr
          have h2 : processShape [(ids1, ⟨c1, s1, ids1⟩)] s2 c2 ids2 =
              some [(ids2, ⟨c2 + c1, s2, ids2⟩)] := by
            have hcont : shapesContains [(ids1, ⟨c1, s1, ids1⟩)] ids2 = false := by
              simp [shapesContains, heq]
            rw [processShape, hcont]
            simp only [Bool.false_eq_true, if_false, shapeScanMatch, h21, hr]
            simp [shapesErase, shapesAddCount]
          exact ⟨⟨c2 + c1, s2, ids2⟩, hrun s1 c1 ids1 s2 c2 ids2 _ h2, Nat.add_comm c2 c1⟩
        · have h2 : processShape [(ids1, ⟨c1, s1, ids1⟩)] s2 c2 ids2 =
              some [(ids1, ⟨c1 + c2, s1, ids1⟩)] := by
            have hcont : shapesContains [(ids1, ⟨c1, s1, ids1⟩)] ids2 = false := by
              simp [shapesContains, heq]
            rw [processShape, hcont]
            simp only [Bool.false_eq_true, if_false, shapeScanMatch, h21]
            simp [shapesAddCount]
          exact ⟨⟨c1 + c2, s1, ids1⟩, hrun s1 c1 ids1 s2 c2 ids2 _ h2, rfl⟩
  · intro s1 c1 s2 c2 ids1 ids2 hcle h21 h12
    have heq : ids1 ≠ ids2 := by
      intro hc
      subst hc
      by_cases hnil : ids1 = []
      · rw [(is_subsequence_none_iff ids1 ids1).mpr hnil] at h21
        exact Option.noConfusion h21
      · rw [is_subsequence_self ids1 hnil] at h21
        simp at h21
    have h2 : processShape [(ids1, ⟨c1, s1, ids1⟩)] s2 c2 ids2 =
        some [(ids1, ⟨c1, s1, ids1⟩), (ids2, ⟨c2, s2, ids2⟩)] := by
      have hcont : shapesContains [(ids1, ⟨c1, s1, ids1⟩)] ids2 = false := by
        simp [shapesContains, heq]
      rw [processShape, hcont]
      simp only [Bool.false_eq_true, if_false, shapeScanMatch, h21, h12]
      simp [shapesAddCount, heq, Ne.symm heq]
    rw [hrun s1 c1 ids1 s2 c2 ids2 _ h2]
    have hsort : pySorted countGe
        (([(ids1, (⟨c1, s1, ids1⟩ : ShapeInfo)), (ids2, ⟨c2, s2, ids2⟩)].map
          (fun p => p.2))) = [⟨c1, s1, ids1⟩, ⟨c2, s2, ids2⟩] := by
      rw [List.map_cons, List.map_cons, List.map_nil]
      apply pySorted_of_sortedBy
      refine sortedBy_cons.mpr ⟨?_, sortedBy_singleton _ _⟩
      intro z hz
      rw [List.mem_singleton] at hz
      subst hz
      simp [countGe, hcle]
    rw [hsort]
  · intro shapes res hres
    rw [get_unique_shapes] at hres
    rcases hfold : shapes.foldl
        (fun acc sh => acc.bind (fun m => processShape m sh.1 sh.2.1 sh.2.2)) (some []) with
      _ | m
    · rw [hfold] at hres
      exact Option.noConfusion hres
    · rw [hfold, Option.map_some'] at hres
      have hr : res = pySorted countGe (m.map (fun p => p.2)) := (Option.some.inj hres).symm
      subst hr
      have hs := pySorted_sortedBy countGe countGe_total countGe_trans (m.map (fun p => p.2))
      exact hs.imp (fun h => of_decide_eq_true h)

theorem get_unique_shapes_spec_witness :
    (∃ r : ShapeInfo, get_unique_shapes [(1, 5, [1, 2, 3]), (2, 3, [1, 2])] = some [r] ∧
      r.count = 5 + 3)
    ∧ get_unique_shapes [(3, 5, [1, 2]), (4, 3, [3, 4])] =
        some [⟨5, 3, [1, 2]⟩, ⟨3, 4, [3, 4]⟩] :=
  ⟨get_unique_shapes_spec.1 1 5 2 3 [1, 2, 3] [1, 2] (Or.inl (by decide)),
   get_unique_shapes_spec.2.1 3 5 4 3 [1, 2] [3, 4] (by decide) (by decide) (by decide)⟩

theorem scanSegments_result (segDist : Nat → ℚ) :
    ∀ (fuel idx : Nat) (bo : ℚ) (bi : Nat),
      scanSegments segDist idx fuel bo bi = (bo, bi)
      ∨ ((scanSegments segDist idx fuel bo bi).1 < bo ∧
         idx ≤ (scanSegments segDist idx fuel bo bi).2) := by
  intro fuel
  induction fuel with
  | zero => intro idx bo bi; exact Or.inl rfl
  | succ f ih =>
    intro idx bo bi
    by_cases hlt : segDist idx < bo
    · have hstep : scanSegments segDist idx (f + 1) bo bi =
          scanSegments segDist (idx + 1) f (segDist idx) idx := by
        rw [scanSegments]
        simp only [if_pos hlt]
        rw [if_neg]
        intro hc
        exact absurd hc.2 (lt_irrefl _)
      rw [hstep]
      rcases ih (idx + 1) (segDist idx) idx with h | h
      · rw [h]
        exact Or.inr ⟨hlt, le_refl idx⟩
      · exact Or.inr ⟨lt_trans h.1 hlt, le_trans (Nat.le_succ idx) h.2⟩
    · by_cases hbr : bo < 50 ∧ bo < segDist idx
      · have hstep : scanSegments segDist idx (f + 1) bo bi = (bo, bi) := by
          rw [scanSegments]
          simp only [if_neg hlt, if_pos hbr]
        exact Or.inl hstep
      · have hstep : scanSegments segDist idx (f + 1) bo bi =
            scanSegments segDist (idx + 1) f bo bi := by
          rw [scanSegments]
          simp only [if_neg hlt, if_neg hbr]
        rw [hstep]
        rcases ih (idx + 1) bo bi with h | h
        · exact Or.inl h
        · exact Or.inr ⟨h.1, le_trans (Nat.le_succ idx) h.2⟩

theorem get_stop_geometry_after_of_recorded (cumDist : Nat → ℚ) (numLines : Nat)
    (s : StopInput) (si : Nat)
    (h : ¬ (get_stop_geometry cumDist numLines s si).offset > 100) :
    si ≤ (get_stop_geometry cumDist numLines s si).after_index := by
  rcases scanSegments_result s.segDist (numLines - si) si 99999999 0 with hL | hR
  · exfalso
    apply h
    have hoff : (get_stop_geometry cumDist numLines s si).offset = pyInt 99999999 := by
      rw [get_stop_geometry]
      simp only [hL]
    rw [hoff]
    norm_num [pyInt]
  · have hoff : (get_stop_geometry cumDist numLines s si).offset =
        pyInt (scanSegments s.segDist si (numLines - si) 99999999 0).1 := rfl
    exact hR.2

theorem processStops_after_ge (cumDist : Nat → ℚ) (numLines : Nat) :
    ∀ (stops : List StopInput) (si : Nat) (p : Nat × StopGeo),
      p ∈ processStops cumDist numLines stops si → si ≤ p.2.after_index := by
  intro stops
  induction stops with
  | nil => intro si p hp; exact absurd hp (List.not_mem_nil p)
  | cons s rest ih =>
    intro si p hp
    by_cases hc : (get_stop_geometry cumDist numLines s si).offset > 100
    · rw [processStops, if_pos hc] at hp
      exact ih si p hp
    · rw [processStops, if_neg hc] at hp
      rcases List.mem_cons.mp hp with hp1 | hp2
      · rw [hp1]
        exact get_stop_geometry_after_of_recorded cumDist numLines s si hc
      · exact le_trans (get_stop_geometry_after_of_recorded cumDist numLines s si hc)
          (ih _ p hp2)

theorem processStops_mono (cumDist : Nat → ℚ) (numLines : Nat) :
    ∀ (stops : List StopInput) (si : Nat),
      (processStops cumDist numLines stops si).Pairwise
        (fun a b => a.2.after_index ≤ b.2.after_index) := by
  intro stops
  induction stops with
  | nil => intro si; exact List.Pairwise.nil
  | cons s rest ih =>
    intro si
    by_cases hc : (get_stop_geometry cumDist numLines s si).offset > 100
    · rw [processStops, if_pos hc]
      exact ih si
    · rw [processStops, if_neg hc]
      refine List.pairwise_cons.mpr ⟨?_, ih _⟩
      intro p hp
      exact processStops_after_ge cumDist numLines rest _ p hp

theorem cumDistOf_mono (lens : List ℚ) (h : ∀ x ∈ lens, 0 ≤ x) :
    ∀ i j : Nat, i ≤ j → cumDistOf lens i ≤ cumDistOf lens j := by
  have hsum : ∀ l : List ℚ, (∀ x ∈ l, 0 ≤ x) → ∀ a : ℚ, a ≤ l.foldl (fun a b => a + b) a := by
    intro l
    induction l with
    | nil => intro _ a; exact le_refl a
    | cons x xs ihl =>
      intro hx a
      rw [List.foldl_cons]
      calc a ≤ a + x := le_add_of_nonneg_right (hx x (List.mem_cons_self x xs))
        _ ≤ xs.foldl (fun a b => a + b) (a + x) :=
          ihl (fun y hy => hx y (List.mem_cons_of_mem x hy)) (a + x)
  intro i j hij
  rw [cumDistOf, cumDistOf]
  have htake : lens.take (j + 1) = lens.take (i + 1) ++ (lens.drop (i + 1)).take (j - i) := by
    have hji : j + 1 = (i + 1) + (j - i) := by omega
    rw [hji, List.take_add]
  rw [htake, List.foldl_append]
  exact hsum ((lens.drop (i + 1)).take (j - i))
    (fun x hx => h x (List.mem_of_mem_drop (List.mem_of_mem_take hx))) _

theorem get_direction_data_distance_not_monotone :
    ((get_direction_data (cumDistOf [0]) 1
        [⟨100, fun _ => 5, fun _ => 11⟩, ⟨101, fun _ => 5, fun _ => 7⟩]).stop_geometry.map
      (fun p => p.2.distance)) = [11, 7]
    ∧ ¬ ((get_direction_data (cumDistOf [0]) 1
        [⟨100, fun _ => 5, fun _ => 11⟩, ⟨101, fun _ => 5, fun _ => 7⟩]).stop_geometry.map
      (fun p => p.2.distance)).Pairwise (fun a b => a ≤ b) := by
  have hscan : scanSegments (fun _ => (5 : ℚ)) 0 1 99999999 0 = (5, 0) := by
    rw [scanSegments]
    norm_num [scanSegments]
  have hcum : cumDistOf [0] 0 = 0 := by
    norm_num [cumDistOf]
  have hg1 : get_stop_geometry (cumDistOf [0]) 1 ⟨100, fun _ => 5, fun _ => 11⟩ 0 =
      ⟨11, 0, 5⟩ := by
    rw [get_stop_geometry]
    simp only [Nat.sub_zero, hscan, hcum]
    norm_num [pyInt]
  have hg2 : get_stop_geometry (cumDistOf [0]) 1 ⟨101, fun _ => 5, fun _ => 7⟩ 0 =
      ⟨7, 0, 5⟩ := by
    rw [get_stop_geometry]
    simp only [Nat.sub_zero, hscan, hcum]
    norm_num [pyInt]
  have hps : processStops (cumDistOf [0]) 1
      [⟨100, fun _ => 5, fun _ => 11⟩, ⟨101, fun _ => 5, fun _ => 7⟩] 0 =
      [(100, ⟨11, 0, 5⟩), (101, ⟨7, 0, 5⟩)] := by
    rw [processStops, hg1]
    norm_num
    rw [processStops, hg2]
    norm_num
    rfl
  have h : ((get_direction_data (cumDistOf [0]) 1
      [⟨100, fun _ => 5, fun _ => 11⟩, ⟨101, fun _ => 5, fun _ => 7⟩]).stop_geometry.map
        (fun p => p.2.distance)) = [11, 7] := by
    rw [get_direction_data]
    simp only [hps]
    rfl
  refine ⟨h, ?_⟩
  rw [h]
  decide

theorem get_direction_data_monotone :
    ∀ (lens : List ℚ) (numLines : Nat) (stops : List StopInput),
      (∀ x ∈ lens, 0 ≤ x) →
      ((get_direction_data (cumDistOf lens) numLines stops).stop_geometry.Pairwise
        (fun a b => a.2.after_index ≤ b.2.after_index))
      ∧ ((get_direction_data (cumDistOf lens) numLines stops).stop_geometry.Pairwise
        (fun a b => cumDistOf lens a.2.after_index ≤ cumDistOf lens b.2.after_index)) := by
  intro lens numLines stops hlens
  have h1 := processStops_mono (cumDistOf lens) numLines stops 0
  exact ⟨h1, h1.imp (fun hab => cumDistOf_mono lens hlens _ _ hab)⟩

theorem get_direction_data_monotone_witness :
    ((get_direction_data (cumDistOf [0, 10]) 2
        [⟨1, fun i => if i = 0 then 3 else 40, fun _ => 4⟩,
         ⟨2, fun i => if i = 0 then 6 else 30, fun _ => 8⟩,
         ⟨3, fun i => if i = 0 then 90 else 2, fun _ => 3⟩]).stop_geometry.Pairwise
      (fun a b => a.2.after_index ≤ b.2.after_index))
    ∧ ((get_direction_data (cumDistOf [0, 10]) 2
        [⟨1, fun i => if i = 0 then 3 else 40, fun _ => 4⟩,
         ⟨2, fun i => if i = 0 then 6 else 30, fun _ => 8⟩,
         ⟨3, fun i => if i = 0 then 90 else 2, fun _ => 3⟩]).stop_geometry.Pairwise
      (fun a b => cumDistOf [0, 10] a.2.after_index ≤ cumDistOf [0, 10] b.2.after_index)) :=
  get_direction_data_monotone [0, 10] 2
    [⟨1, fun i => if i = 0 then 3 else 40, fun _ => 4⟩,
     ⟨2, fun i => if i = 0 then 6 else 30, fun _ => 8⟩,
     ⟨3, fun i => if i = 0 then 90 else 2, fun _ => 3⟩]
    (by norm_num [List.forall_mem_cons])

theorem processStops_append (cumDist : Nat → ℚ) (numLines : Nat) :
    ∀ (xs ys : List StopInput) (si : Nat),
      processStops cumDist numLines (xs ++ ys) si =
        processStops cumDist numLines xs si ++
          processStops cumDist numLines ys (walkIndex cumDist numLines xs si) := by
  intro xs
  induction xs with
  | nil => intro ys si; rfl
  | cons s rest ih =>
    intro ys si
    by_cases hc : (get_stop_geometry cumDist numLines s si).offset > 100
    · rw [List.cons_append, processStops, if_pos hc, processStops, if_pos hc,
        walkIndex, if_pos hc, ih]
    · rw [List.cons_append, processStops, if_neg hc, processStops, if_neg hc,
        walkIndex, if_neg hc, ih, List.cons_append]

theorem processStops_keys_sub (cumDist : Nat → ℚ) (numLines : Nat) :
    ∀ (stops : List StopInput) (si : Nat) (p : Nat × StopGeo),
      p ∈ processStops cumDist numLines stops si → p.1 ∈ stops.map (fun s => s.id) := by
  intro stops
  induction stops with
  | nil => intro si p hp; exact absurd hp (List.not_mem_nil p)
  | cons s rest ih =>
    intro si p hp
    rw [List.map_cons, List.mem_cons]
    by_cases hc : (get_stop_geometry cumDist numLines s si).offset > 100
    · rw [processStops, if_pos hc] at hp
      exact Or.inr (ih si p hp)
    · rw [processStops, if_neg hc] at hp
      rcases List.mem_cons.mp hp with hp1 | hp2
      · exact Or.inl (by rw [hp1])
      · exact Or.inr (ih _ p hp2)

theorem get_direction_data_offset_spec :
    ∀ (cumDist : Nat → ℚ) (numLines : Nat) (xs : List StopInput) (s : StopInput)
      (ys : List StopInput),
      ((get_stop_geometry cumDist numLines s (walkIndex cumDist numLines xs 0)).offset > 100 →
        (get_direction_data cumDist numLines (xs ++ s :: ys)).stop_geometry =
            processStops cumDist numLines xs 0 ++
              processStops cumDist numLines ys (walkIndex cumDist numLines xs 0)
          ∧ s.id ∈ (get_direction_data cumDist numLines (xs ++ s :: ys)).stops
          ∧ (s.id ∉ (xs ++ ys).map (fun t => t.id) →
              s.id ∉ (get_direction_data cumDist numLines (xs ++ s :: ys)).stop_geometry.map
                (fun p => p.1)))
      ∧ (¬ (get_stop_geometry cumDist numLines s
            (walkIndex cumDist numLines xs 0)).offset > 100 →
        (get_direction_data cumDist numLines (xs ++ s :: ys)).stop_geometry =
            processStops cumDist numLines xs 0 ++
              (s.id, get_stop_geometry cumDist numLines s (walkIndex cumDist numLines xs 0)) ::
                processStops cumDist numLines ys
                  (get_stop_geometry cumDist numLines s
                    (walkIndex cumDist numLines xs 0)).after_index
          ∧ (s.id, get_stop_geometry cumDist numLines s (walkIndex cumDist numLines xs 0)) ∈
              (get_direction_data cumDist numLines (xs ++ s :: ys)).stop_geometry) := by
  intro cumDist numLines xs s ys
  have hdd : (get_direction_data cumDist numLines (xs ++ s :: ys)).stop_geometry =
      processStops cumDist numLines xs 0 ++
        processStops cumDist numLines (s :: ys) (walkIndex cumDist numLines xs 0) := by
    rw [get_direction_data]
    exact processStops_append cumDist numLines xs (s :: ys) 0
  constructor
  · intro hbig
    have hsg : (get_direction_data cumDist numLines (xs ++ s :: ys)).stop_geometry =
        processStops cumDist numLines xs 0 ++
          processStops cumDist numLines ys (walkIndex cumDist numLines xs 0) := by
      rw [hdd, processStops, if_pos hbig]
    refine ⟨hsg, ?_, ?_⟩
    · rw [get_direction_data]
      refine List.mem_map.mpr ⟨s, ?_, rfl⟩
      exact List.mem_append.mpr (Or.inr (List.mem_cons_self s ys))
    · intro hfresh hkey
      rw [hsg] at hkey
      rw [List.map_append, List.mem_append] at hkey
      rw [List.map_append, List.mem_append] at hfresh
      push_neg at hfresh
      rcases hkey with hk | hk
      · obtain ⟨p, hp, hpid⟩ := List.mem_map.mp hk
        exact hfresh.1 (hpid ▸ processStops_keys_sub cumDist numLines xs 0 p hp)
      · obtain ⟨p, hp, hpid⟩ := List.mem_map.mp hk
        exact hfresh.2 (hpid ▸ processStops_keys_sub cumDist numLines ys _ p hp)
  · intro hsmall
    have hsg : (get_direction_data cumDist numLines (xs ++ s :: ys)).stop_geometry =
        processStops cumDist numLines xs 0 ++
          (s.id, get_stop_geometry cumDist numLines s (walkIndex cumDist numLines xs 0)) ::
            processStops cumDist numLines ys
              (get_stop_geometry cumDist numLines s
                (walkIndex cumDist numLines xs 0)).after_index := by
      rw [hdd, processStops, if_neg hsmall]
    refine ⟨hsg, ?_⟩
    rw [hsg, List.mem_append, List.mem_cons]
    exact Or.inr (Or.inl rfl)

theorem get_direction_data_offset_spec_witness :
    ((get_direction_data (cumDistOf [0]) 1 [⟨42, fun _ => 200, fun _ => 300⟩]).stop_geometry = [])
    ∧ 42 ∈ (get_direction_data (cumDistOf [0]) 1 [⟨42, fun _ => 200, fun _ => 300⟩]).stops
    ∧ (42, get_stop_geometry (cumDistOf [0]) 1 ⟨42, fun _ => 5, fun _ => 7⟩ 0) ∈
        (get_direction_data (cumDistOf [0]) 1 [⟨42, fun _ => 5, fun _ => 7⟩]).stop_geometry := by
  have hscan200 : scanSegments (fun _ => (200 : ℚ)) 0 1 99999999 0 = (200, 0) := by
    rw [scanSegments]
    norm_num [scanSegments]
  have hscan5 : scanSegments (fun _ => (5 : ℚ)) 0 1 99999999 0 = (5, 0) := by
    rw [scanSegments]
    norm_num [scanSegments]
  have hwi : walkIndex (cumDistOf [0]) 1 [] 0 = 0 := rfl
  have hbigoff : (get_stop_geometry (cumDistOf [0]) 1 ⟨42, fun _ => 200, fun _ => 300⟩
      (walkIndex (cumDistOf [0]) 1 [] 0)).offset > 100 := by
    rw [hwi, get_stop_geometry]
    simp only [Nat.sub_zero, hscan200]
    norm_num [pyInt]
  have hsmalloff : ¬ (get_stop_geometry (cumDistOf [0]) 1 ⟨42, fun _ => 5, fun _ => 7⟩
      (walkIndex (cumDistOf [0]) 1 [] 0)).offset > 100 := by
    rw [hwi, get_stop_geometry]
    simp only [Nat.sub_zero, hscan5]
    norm_num [pyInt]
  have hbig := (get_direction_data_offset_spec (cumDistOf [0]) 1 []
    ⟨42, fun _ => 200, fun _ => 300⟩ []).1 hbigoff
  have hsmall := (get_direction_data_offset_spec (cumDistOf [0]) 1 []
    ⟨42, fun _ => 5, fun _ => 7⟩ []).2 hsmalloff
  exact ⟨hbig.1, hbig.2.1, hsmall.2⟩

theorem get_custom_direction_data_nameError :
    get_custom_direction_data [1] [] [⟨5, 1, [1, 2, 3]⟩, ⟨3, 2, [1, 2, 4]⟩] =
        Except.error PyErr.nameError
    ∧ get_custom_direction_data [9] [] [⟨5, 1, [1, 2, 3]⟩, ⟨3, 2, [1, 2, 4]⟩] =
        Except.error PyErr.nameError
    ∧ get_custom_direction_data [4] [] [⟨5, 1, [1, 2, 3]⟩, ⟨3, 2, [1, 2, 4]⟩] =
        Except.ok ⟨3, 2, [1, 2, 4]⟩
    ∧ get_custom_direction_data [1] [3] [⟨5, 1, [1, 2, 3]⟩, ⟨3, 2, [1, 2, 4]⟩] =
        Except.ok ⟨3, 2, [1, 2, 4]⟩
    ∧ ∀ msg, get_custom_direction_data [1] [] [⟨5, 1, [1, 2, 3]⟩, ⟨3, 2, [1, 2, 4]⟩] ≠
        Except.error (PyErr.exception msg) := by
  refine ⟨by rfl, by rfl, by rfl, by rfl, ?_⟩
  intro msg h
  have he : get_custom_direction_data [1] [] [⟨5, 1, [1, 2, 3]⟩, ⟨3, 2, [1, 2, 4]⟩] =
      Except.error PyErr.nameError := by rfl
  rw [he] at h
  have hp : PyErr.nameError = PyErr.exception msg := by
    injection h
  exact PyErr.noConfusion hp

end Theorems

end Gtfs
